import Mathlib

/-!
Verification of the `TrainManager` record store in `src/individual_1.py`.

The store holds Python dictionaries with string keys and string values;
we embed a dictionary as an association list `List (String × String)`
looked up with `List.lookup` (Python dictionaries have unique keys, so
first-match lookup agrees with dictionary access).  The file system is
embedded as an association list from file names to parsed file contents:
`json.dump` followed by `json.load` is the identity on JSON arrays of
string-valued objects, so a saved file is modelled by the value it holds,
and text that `json.load` would reject is modelled by the constructor
`FileData.malformed`.  Log messages are modelled structurally: one
constructor per `logging` call site, carrying exactly the data that the
call interpolates into its message.
-/

namespace TrainStore

/-- Lexicographic less-or-equal on character sequences, comparing
characters by Unicode code point: the semantics of Python's `<=` on
strings, which `list.sort(key=...)` uses on the string keys. -/
def lexLe : List Char → List Char → Bool
  | [], _ => true
  | _ :: _, [] => false
  | a :: as, b :: bs =>
    if a.toNat < b.toNat then true
    else if b.toNat < a.toNat then false
    else lexLe as bs

/-- Python string comparison `s <= t`: lexicographic on code points. -/
def pyStrLe (s t : String) : Bool := lexLe s.data t.data

/-- Model of Python `str.lower()`: character-wise lowercasing.  On the
ASCII letters that the program's suffix check and the claims exercise,
`Char.toLower` agrees with Python's case mapping. -/
def pyLower (s : String) : String := ⟨s.data.map Char.toLower⟩

/-- Model of Python `str.endswith(t)`: `t` is a suffix of the character
sequence of `s`.  An exact, case-sensitive suffix test in both. -/
def pyEndsWith (s t : String) : Bool := t.data.isSuffixOf s.data

/-- A Python dictionary with string keys and string values, as built by
`add_train` or parsed from a JSON object of strings. -/
abbrev PyDict := List (String × String)

/-- The dictionary literal built by `TrainManager.add_train` (source
lines 81-89): the four fields in the order of the source literal. -/
def mkTrain (dp nt td dst : String) : PyDict :=
  [("departure_point", dp), ("number_train", nt),
   ("time_departure", td), ("destination", dst)]

/-- Dictionary access `train["time_departure"]`, which in Python either
yields the value or raises `KeyError`. -/
def timeKey (r : PyDict) : Option String := r.lookup "time_departure"

/-- The sort key of a record that has a `"time_departure"` field (the
default is never consulted: `add_train` raises before sorting records
without the field, see `addTrain`). -/
def timeKeyD (r : PyDict) : String := (timeKey r).getD ""

/-- Dictionary access `train["destination"]`. -/
def destKey (r : PyDict) : Option String := r.lookup "destination"

/-- The comparison `list.sort(key=lambda train: train["time_departure"])`
induces on records. -/
def trainLe (a b : PyDict) : Bool := pyStrLe (timeKeyD a) (timeKeyD b)

/-- Exceptions the store operations can raise. -/
inductive PyErr where
  | keyError (k : String)
  | jsonDecodeError
  deriving DecidableEq

/-- Severity of a log record. -/
inductive Level where
  | info
  | warning
  deriving DecidableEq

/-- Log records emitted by the store, one constructor per `logging` call
site in `TrainManager`, carrying the data interpolated into the message. -/
inductive LogEntry where
  | addedTrain (dp nt td dst : String)
  | searchDone (query : String) (count : Nat)
  | loadedFrom (filename : String)
  | fileMissing (filename : String)
  | savedTo (filename : String)
  deriving DecidableEq

/-- Severity of each log record: `load_from_json` warns about a missing
file (`logging.warning`), everything else is `logging.info`. -/
def LogEntry.level : LogEntry → Level
  | .fileMissing _ => .warning
  | _ => .info

/-- Parsed content of a file, as `json.load` sees it.  `jsonRecords rs`
is text parsing as a JSON array of string-valued objects (the shapes the
store writes and the claims quantify over); `malformed` is text that
`json.load` rejects with `JSONDecodeError`. -/
inductive FileData where
  | jsonRecords (rs : List PyDict)
  | malformed
  deriving DecidableEq

/-- The file system: file names mapped to parsed contents.  Writing
prepends; reading takes the first match. -/
abbrev FS := List (String × FileData)

/-- Reading the file at `p`, `none` when `os.path.exists` is false. -/
def fsRead (fs : FS) (p : String) : Option FileData := fs.lookup p

/-- Overwriting (or creating) the file at `p`. -/
def fsWrite (fs : FS) (p : String) (d : FileData) : FS := (p, d) :: fs

/-- Stable insertion of `a` into `l`: `a` goes in front of the first
element `b` with `le a b`, hence after every earlier element with an
equal key and before every later one. -/
def insertSorted (le : α → α → Bool) (a : α) : List α → List α
  | [] => [a]
  | b :: bs => if le a b then a :: b :: bs else b :: insertSorted le a bs

/-- Stable insertion sort.  Python's `list.sort` is a stable sort
(Timsort); any two stable sorts of the same list under the same total
preorder produce the same output list, so this structurally recursive
stable sort is extensionally the `self.trains.sort(...)` of the source. -/
def insertionSort (le : α → α → Bool) : List α → List α
  | [] => []
  | a :: as => insertSorted le a (insertionSort le as)

/-- Embedding of `TrainManager.add_train` (source lines 61-94): append
the four-field dictionary, then stable-sort the whole list by the
`"time_departure"` value.  Evaluating the sort key raises `KeyError`
when some record lacks the field (possible only if such records were
loaded from a file); the model reports the error and does not track the
partially mutated list Python leaves behind, since no further claim
reads that state. -/
def addTrain (trains : List PyDict) (dp nt td dst : String) :
    Except PyErr (List PyDict × LogEntry) :=
  let l := trains ++ [mkTrain dp nt td dst]
  if l.all fun r => (timeKey r).isSome then
    .ok (insertionSort trainLe l, .addedTrain dp nt td dst)
  else
    .error (.keyError "time_departure")

/-- Embedding of `TrainManager.list_trains`: returns the collection. -/
def listTrains (trains : List PyDict) : List PyDict := trains

/-- Embedding of `TrainManager.select_trains` (source lines 105-119):
lower-case the query once, keep the records whose lower-cased
`"destination"` value equals it, log the lower-cased query and the match
count.  Accessing `train["destination"]` raises `KeyError` when a record
lacks the field. -/
def selectTrains (trains : List PyDict) (q : String) :
    Except PyErr (List PyDict × LogEntry) :=
  let qL := pyLower q
  if trains.all fun r => (destKey r).isSome then
    let selected := trains.filter fun r => pyLower ((destKey r).getD "") == qL
    .ok (selected, .searchDone qL selected.length)
  else
    .error (.keyError "destination")

/-- Outcome of `load_from_json`: the exception if one was raised, the
collection afterwards, and the log records emitted. -/
structure LoadOutcome where
  err : Option PyErr
  trains : List PyDict
  log : List LogEntry
  deriving DecidableEq

/-- Embedding of `TrainManager.load_from_json` (source lines 121-136):
a missing file is a warning and a no-op; parseable content replaces the
collection verbatim (the bare assignment `self.trains = json.load(f)`,
with no validation and no re-sort); unparseable content raises
`JSONDecodeError` before the assignment, leaving the collection as it
was. -/
def loadFromJson (fs : FS) (trains : List PyDict) (filename : String) :
    LoadOutcome :=
  match fsRead fs filename with
  | some (.jsonRecords rs) => ⟨none, rs, [.loadedFrom filename]⟩
  | some .malformed => ⟨some .jsonDecodeError, trains, []⟩
  | none => ⟨none, trains, [.fileMissing filename]⟩

/-- The suffix normalization of `save_to_json` (source lines 147-148):
append `".json"` exactly when the name does not already end with it. -/
def normalizeName (filename : String) : String :=
  if pyEndsWith filename ".json" then filename else filename ++ ".json"

/-- Embedding of `TrainManager.save_to_json` (source lines 138-153):
normalize the name, write the whole collection as a JSON array at the
normalized name, log the normalized name.  Returns the file system, the
path written, and the log record. -/
def saveToJson (fs : FS) (trains : List PyDict) (filename : String) :
    FS × String × LogEntry :=
  let f := normalizeName filename
  (fsWrite fs f (.jsonRecords trains), f, .savedTo f)

/-- Lexicographic less-or-equal is reflexive. -/
theorem lexLe_refl (l : List Char) : lexLe l l = true := by
  induction l with
  | nil => rfl
  | cons a as ih =>
    rw [lexLe, if_neg (Nat.lt_irrefl _), if_neg (Nat.lt_irrefl _)]
    exact ih

/-- Lexicographic less-or-equal is total. -/
theorem lexLe_total (x y : List Char) : (lexLe x y || lexLe y x) = true := by
  induction x generalizing y with
  | nil => simp [lexLe]
  | cons a as ih =>
    cases y with
    | nil => simp [lexLe]
    | cons b bs =>
      simp only [lexLe]
      rcases Nat.lt_trichotomy a.toNat b.toNat with h | h | h
      · simp [h]
      · simp only [h, Nat.lt_irrefl, if_neg, if_false]
        exact ih bs
      · simp [h, Nat.lt_asymm h]

/-- Lexicographic less-or-equal is transitive. -/
theorem lexLe_trans (x : List Char) :
    ∀ y z, lexLe x y = true → lexLe y z = true → lexLe x z = true := by
  induction x with
  | nil => intro y z _ _; rfl
  | cons a as ih =>
    intro y z h1 h2
    cases y with
    | nil => simp [lexLe] at h1
    | cons b bs =>
      cases z with
      | nil => simp [lexLe] at h2
      | cons c cs =>
        simp only [lexLe] at h1 h2 ⊢
        split_ifs at h1 h2 ⊢ <;> first
          | rfl
          | omega
          | exact ih bs cs h1 h2

/-- The record comparison used by the sort is total. -/
theorem trainLe_total (a b : PyDict) : (trainLe a b || trainLe b a) = true :=
  lexLe_total _ _

/-- The record comparison used by the sort is transitive. -/
theorem trainLe_trans (a b c : PyDict) (h1 : trainLe a b = true)
    (h2 : trainLe b c = true) : trainLe a c = true :=
  lexLe_trans _ _ _ h1 h2

/-- Inserting permutes: the result holds `a` and the old elements. -/
theorem insertSorted_perm (le : α → α → Bool) (a : α) (l : List α) :
    (insertSorted le a l).Perm (a :: l) := by
  induction l with
  | nil => simp [insertSorted]
  | cons b bs ih =>
    rw [insertSorted]
    split
    · exact List.Perm.refl _
    · exact (ih.cons b).trans (List.Perm.swap a b bs)

/-- The stable insertion sort permutes its input. -/
theorem insertionSort_perm (le : α → α → Bool) (l : List α) :
    (insertionSort le l).Perm l := by
  induction l with
  | nil => simp [insertionSort]
  | cons a as ih =>
    rw [insertionSort]
    exact (insertSorted_perm le a _).trans (ih.cons a)

/-- Membership in an insertion. -/
theorem mem_insertSorted {le : α → α → Bool} {a x : α} {l : List α} :
    x ∈ insertSorted le a l ↔ x = a ∨ x ∈ l := by
  rw [(insertSorted_perm le a l).mem_iff]
  simp

/-- Inserting into a sorted list keeps it sorted, for a total and
transitive comparison. -/
theorem pairwise_insertSorted {le : α → α → Bool}
    (total : ∀ x y, (le x y || le y x) = true)
    (htr : ∀ x y z, le x y = true → le y z = true → le x z = true)
    (a : α) {l : List α} (h : l.Pairwise fun x y => le x y = true) :
    (insertSorted le a l).Pairwise fun x y => le x y = true := by
  induction l with
  | nil => simp [insertSorted]
  | cons b bs ih =>
    rw [insertSorted]
    split
    case isTrue hab =>
      refine List.Pairwise.cons ?_ h
      intro x hx
      rcases List.mem_cons.mp hx with rfl | hx
      · exact hab
      · exact htr a b x hab (List.rel_of_pairwise_cons h hx)
    case isFalse hab =>
      refine List.Pairwise.cons ?_ (ih (List.Pairwise.of_cons h))
      intro x hx
      rcases mem_insertSorted.mp hx with hxa | hx
      · rw [hxa]
        have h' := total a b
        rw [Bool.or_eq_true] at h'
        exact h'.resolve_left hab
      · exact List.rel_of_pairwise_cons h hx

/-- The stable insertion sort sorts, for a total and transitive
comparison. -/
theorem pairwise_insertionSort {le : α → α → Bool}
    (total : ∀ x y, (le x y || le y x) = true)
    (htr : ∀ x y z, le x y = true → le y z = true → le x z = true)
    (l : List α) :
    (insertionSort le l).Pairwise fun x y => le x y = true := by
  induction l with
  | nil => simp [insertionSort]
  | cons a as ih =>
    rw [insertionSort]
    exact pairwise_insertSorted total htr a ih

/-- Stability, positive case: when any two elements satisfying `p` are
`le`-related, inserting an element satisfying `p` puts it in front of no
element satisfying `p`. -/
theorem filter_insertSorted_pos {le : α → α → Bool} {p : α → Bool}
    (hp : ∀ x y, p x = true → p y = true → le x y = true)
    {a : α} (ha : p a = true) (l : List α) :
    (insertSorted le a l).filter p = a :: l.filter p := by
  induction l with
  | nil => simp [insertSorted, ha]
  | cons b bs ih =>
    rw [insertSorted]
    split
    case isTrue hab => simp [List.filter_cons, ha]
    case isFalse hab =>
      have hb : p b = false := by
        cases hpb : p b
        · rfl
        · exact absurd (hp a b ha hpb) hab
      simp [List.filter_cons, hb, ih]

/-- Stability, negative case: inserting an element not satisfying `p`
does not change the `p`-filtered list. -/
theorem filter_insertSorted_neg {le : α → α → Bool} {p : α → Bool}
    {a : α} (ha : p a = false) (l : List α) :
    (insertSorted le a l).filter p = l.filter p := by
  induction l with
  | nil => simp [insertSorted, ha]
  | cons b bs ih =>
    rw [insertSorted]
    split
    · simp [List.filter_cons, ha]
    · simp [List.filter_cons, ih]

/-- Stability of the insertion sort: it does not disturb the relative
order of elements that are pairwise `le`-related both ways (here:
records with equal sort keys). -/
theorem filter_insertionSort {le : α → α → Bool} {p : α → Bool}
    (hp : ∀ x y, p x = true → p y = true → le x y = true)
    (l : List α) :
    (insertionSort le l).filter p = l.filter p := by
  induction l with
  | nil => rfl
  | cons a as ih =>
    rw [insertionSort]
    cases ha : p a
    · rw [filter_insertSorted_neg ha, ih]
      simp [List.filter_cons, ha]
    · rw [filter_insertSorted_pos hp ha, ih]
      simp [List.filter_cons, ha]

/-- Writing a file and reading it back at the same name yields the
written content. -/
theorem fsRead_fsWrite_self (fs : FS) (p : String) (d : FileData) :
    fsRead (fsWrite fs p d) p = some d := by
  simp [fsRead, fsWrite, List.lookup]

/-- Appending the `".json"` suffix changes the name. -/
theorem ne_append_json (p : String) : p ≠ p ++ ".json" := by
  intro hh
  have hl := congrArg String.length hh
  rw [String.length_append] at hl
  have h5 : (".json" : String).length = 5 := rfl
  rw [h5] at hl
  omega

/-- Reading at a name other than the one just written sees the previous
file system. -/
theorem fsRead_fsWrite_ne (fs : FS) (p q : String) (d : FileData)
    (h : p ≠ q) : fsRead (fsWrite fs q d) p = fsRead fs p := by
  have hb : (p == q) = false := beq_eq_false_iff_ne.mpr h
  simp [fsRead, fsWrite, List.lookup, hb]

/-- Claim C1: for every store state and query string, `selectTrains`
returns exactly the filter of `listTrains` keeping the records whose
lower-cased `"destination"` value equals the lower-cased query, and that
result is a subsequence of `listTrains` (same relative order, possibly
empty). -/
theorem selectTrains_filter_eq (trains : List PyDict) (q : String)
    (sel : List PyDict) (e : LogEntry)
    (h : selectTrains trains q = .ok (sel, e)) :
    sel = (listTrains trains).filter
        (fun r => pyLower ((destKey r).getD "") == pyLower q) ∧
    sel.Sublist (listTrains trains) := by
  simp only [selectTrains] at h
  split at h
  · rw [Except.ok.injEq, Prod.mk.injEq] at h
    obtain ⟨h1, -⟩ := h
    rw [← h1]
    exact ⟨rfl, List.filter_sublist _⟩
  · exact absurd h (by simp)

/-- Witness for C1 at the spec's scenario: a store holding one record
with destination `"Kazan"` queried with `"KAZAN"` returns that record. -/
theorem selectTrains_filter_eq_witness :
    [mkTrain "Moscow" "101" "09:15" "Kazan"]
      = (listTrains [mkTrain "Moscow" "101" "09:15" "Kazan"]).filter
          (fun r => pyLower ((destKey r).getD "") == pyLower "KAZAN") ∧
    List.Sublist [mkTrain "Moscow" "101" "09:15" "Kazan"]
      (listTrains [mkTrain "Moscow" "101" "09:15" "Kazan"]) :=
  selectTrains_filter_eq [mkTrain "Moscow" "101" "09:15" "Kazan"] "KAZAN"
    [mkTrain "Moscow" "101" "09:15" "Kazan"] (.searchDone "kazan" 1) rfl

/-- Claim C2: after any `addTrain` call that completes (from an
arbitrary prior store state, hence after each call of any sequence of
calls), the collection `listTrains` returns is non-decreasing in the
`"time_departure"` value under plain lexicographic string comparison. -/
theorem addTrain_sorted (trains : List PyDict) (dp nt td dst : String)
    (res : List PyDict) (e : LogEntry)
    (h : addTrain trains dp nt td dst = .ok (res, e)) :
    (listTrains res).Pairwise
      fun a b => pyStrLe (timeKeyD a) (timeKeyD b) = true := by
  simp only [addTrain] at h
  split at h
  · rw [Except.ok.injEq, Prod.mk.injEq] at h
    obtain ⟨h1, -⟩ := h
    rw [← h1]
    exact pairwise_insertionSort trainLe_total trainLe_trans _
  · exact absurd h (by simp)

/-- Witness for C2 at the spec's scenario: inserting `"08:00"` after
`"09:15"` yields the `"08:00"` record first and a sorted collection. -/
theorem addTrain_sorted_witness :
    (listTrains [mkTrain "Moscow" "202" "08:00" "Samara",
        mkTrain "Moscow" "101" "09:15" "Kazan"]).Pairwise
      (fun a b => pyStrLe (timeKeyD a) (timeKeyD b) = true) :=
  addTrain_sorted [mkTrain "Moscow" "101" "09:15" "Kazan"]
    "Moscow" "202" "08:00" "Samara"
    [mkTrain "Moscow" "202" "08:00" "Samara",
     mkTrain "Moscow" "101" "09:15" "Kazan"]
    (.addedTrain "Moscow" "202" "08:00" "Samara") rfl

/-- Claim C9: a completed `addTrain` call permutes the old collection
with the new record appended, and for every key value the subsequence of
records carrying that `"time_departure"` value is exactly the one of the
appended list: records with equal keys keep their relative order, and
the new record comes after all previously present records with an equal
key. -/
theorem addTrain_stable (trains : List PyDict) (dp nt td dst : String)
    (res : List PyDict) (e : LogEntry)
    (h : addTrain trains dp nt td dst = .ok (res, e)) :
    res.Perm (trains ++ [mkTrain dp nt td dst]) ∧
    ∀ k : String,
      res.filter (fun r => timeKeyD r == k)
        = (trains ++ [mkTrain dp nt td dst]).filter
            fun r => timeKeyD r == k := by
  simp only [addTrain] at h
  split at h
  · rw [Except.ok.injEq, Prod.mk.injEq] at h
    obtain ⟨h1, -⟩ := h
    rw [← h1]
    refine ⟨insertionSort_perm _ _, ?_⟩
    intro k
    refine filter_insertionSort ?_ _
    intro x y hx hy
    have hx' : timeKeyD x = k := by simpa using hx
    have hy' : timeKeyD y = k := by simpa using hy
    show trainLe x y = true
    rw [trainLe, hx', hy', pyStrLe]
    exact lexLe_refl _
  · exact absurd h (by simp)

/-- Witness for C9: adding a record whose `"08:00"` key equals the key
of the record already present keeps the old record first and puts the
new one after it. -/
theorem addTrain_stable_witness :
    List.Perm
      [mkTrain "Moscow" "101" "08:00" "Kazan",
       mkTrain "Tver" "202" "08:00" "Samara"]
      ([mkTrain "Moscow" "101" "08:00" "Kazan"]
        ++ [mkTrain "Tver" "202" "08:00" "Samara"]) ∧
    List.filter (fun r => timeKeyD r == "08:00")
        [mkTrain "Moscow" "101" "08:00" "Kazan",
         mkTrain "Tver" "202" "08:00" "Samara"]
      = List.filter (fun r => timeKeyD r == "08:00")
          ([mkTrain "Moscow" "101" "08:00" "Kazan"]
            ++ [mkTrain "Tver" "202" "08:00" "Samara"]) := by
  have h := addTrain_stable [mkTrain "Moscow" "101" "08:00" "Kazan"]
    "Tver" "202" "08:00" "Samara"
    [mkTrain "Moscow" "101" "08:00" "Kazan",
     mkTrain "Tver" "202" "08:00" "Samara"]
    (.addedTrain "Tver" "202" "08:00" "Samara") rfl
  exact ⟨h.1, h.2 "08:00"⟩

/-- Claim C3, counterexample: saving under a name without the `".json"`
suffix and loading under the same name does not round-trip when a
distinct file already exists at the unnormalized name.  Here the store
is empty at save time, `saveToFile("data")` writes to `"data.json"`, but
`loadFromFile("data")` reads the pre-existing file `"data"` and the
collection becomes its content instead of the saved (empty) one. -/
theorem save_then_load_differs :
    (loadFromJson
        (saveToJson [("data", FileData.jsonRecords
            [mkTrain "Tver" "9" "12:00" "Omsk"])] [] "data").1
        [] "data").trains ≠ [] := by decide

/-- Claim C3 (amended): if the path already ends with `".json"`, or no
file exists at the unnormalized path itself, then `saveToFile(p)`
followed by `loadFromFile(p)` on the otherwise-untouched store leaves
the collection element-wise equal to the save-time collection, with no
propagated error. -/
theorem save_then_load_roundtrip (fs : FS) (trains : List PyDict)
    (p : String)
    (h : pyEndsWith p ".json" = true ∨ fsRead fs p = none) :
    (loadFromJson (saveToJson fs trains p).1 trains p).trains = trains ∧
    (loadFromJson (saveToJson fs trains p).1 trains p).err = none := by
  by_cases he : pyEndsWith p ".json" = true
  · have hn : normalizeName p = p := by rw [normalizeName, if_pos he]
    simp only [saveToJson, hn]
    rw [loadFromJson, fsRead_fsWrite_self]
    exact ⟨rfl, rfl⟩
  · have hf : fsRead fs p = none := h.resolve_left he
    have hn : normalizeName p = p ++ ".json" := by
      rw [normalizeName, if_neg he]
    simp only [saveToJson, hn]
    rw [loadFromJson, fsRead_fsWrite_ne _ _ _ _ (ne_append_json p), hf]
    exact ⟨rfl, rfl⟩

/-- Witness for the amended C3: with an empty file system, saving the
one-record store at `"data.json"` and loading the same path restores the
same collection without error. -/
theorem save_then_load_roundtrip_witness :
    (loadFromJson
        (saveToJson [] [mkTrain "Moscow" "1" "09:15" "Kazan"] "data.json").1
        [mkTrain "Moscow" "1" "09:15" "Kazan"] "data.json").trains
      = [mkTrain "Moscow" "1" "09:15" "Kazan"] ∧
    (loadFromJson
        (saveToJson [] [mkTrain "Moscow" "1" "09:15" "Kazan"] "data.json").1
        [mkTrain "Moscow" "1" "09:15" "Kazan"] "data.json").err = none :=
  save_then_load_roundtrip [] [mkTrain "Moscow" "1" "09:15" "Kazan"]
    "data.json" (Or.inl (by decide))

/-- Claim C4, counterexample: a file whose content is well-formed JSON
but whose single record has none of the four expected fields loads
without any error: `load_from_json` assigns `json.load`'s result with no
field validation, so no error propagates and the malformed record is
stored as-is. -/
theorem loadFromJson_missing_fields_ok :
    (loadFromJson [("bad.json", FileData.jsonRecords [[("foo", "bar")]])]
        [] "bad.json").err = none ∧
    (loadFromJson [("bad.json", FileData.jsonRecords [[("foo", "bar")]])]
        [] "bad.json").trains = [[("foo", "bar")]] := by decide

/-- Claim C4 (amended): on an existing file with malformed JSON,
`loadFromFile` raises an error that propagates to the caller; on an
existing file with well-formed JSON, the load completes without error
even when records are missing expected fields (the parsed records are
stored verbatim; missing-field errors can surface only later, when the
fields are accessed). -/
theorem loadFromJson_error_cases (fs : FS) (trains : List PyDict)
    (p : String) :
    (fsRead fs p = some .malformed →
      (loadFromJson fs trains p).err = some .jsonDecodeError) ∧
    ∀ rs, fsRead fs p = some (.jsonRecords rs) →
      (loadFromJson fs trains p).err = none := by
  constructor
  · intro h
    rw [loadFromJson, h]
  · intro rs h
    rw [loadFromJson, h]

/-- Witness for the amended C4: an unparseable file propagates the
decode error; a parseable file whose record lacks every expected field
loads without error. -/
theorem loadFromJson_error_cases_witness :
    (loadFromJson [("m.json", FileData.malformed)] [] "m.json").err
      = some PyErr.jsonDecodeError ∧
    (loadFromJson [("g.json", FileData.jsonRecords [[("foo", "bar")]])]
        [] "g.json").err = none :=
  ⟨(loadFromJson_error_cases [("m.json", FileData.malformed)] []
      "m.json").1 (by decide),
   (loadFromJson_error_cases
      [("g.json", FileData.jsonRecords [[("foo", "bar")]])] []
      "g.json").2 [[("foo", "bar")]] (by decide)⟩

/-- Claim C5: loading an existing file holding a JSON array replaces the
whole in-memory collection with the parsed array verbatim — the result
is the parsed array itself, independent of the prior collection (no
record of it survives) and not re-sorted (the loaded order is the active
order) — with no error and a success log record naming the path. -/
theorem loadFromJson_replaces (fs : FS) (trains : List PyDict)
    (p : String) (rs : List PyDict)
    (h : fsRead fs p = some (.jsonRecords rs)) :
    loadFromJson fs trains p = ⟨none, rs, [.loadedFrom p]⟩ := by
  rw [loadFromJson, h]

/-- Witness for C5: a file holding two records in an order that is not
sorted by departure time replaces a non-empty store verbatim, keeping
the unsorted order. -/
theorem loadFromJson_replaces_witness :
    loadFromJson
        [("db.json", FileData.jsonRecords
          [mkTrain "Tver" "9" "10:00" "Omsk",
           mkTrain "Pskov" "7" "08:00" "Kazan"])]
        [mkTrain "Moscow" "1" "07:00" "Ufa"] "db.json"
      = ⟨none,
         [mkTrain "Tver" "9" "10:00" "Omsk",
          mkTrain "Pskov" "7" "08:00" "Kazan"],
         [.loadedFrom "db.json"]⟩ :=
  loadFromJson_replaces _ _ _ _ (by decide)

/-- Claim C6: loading a path that names no existing file mutates
nothing: the collection stays as it was, no error is raised, and the one
log record emitted is a warning naming the path. -/
theorem loadFromJson_missing_noop (fs : FS) (trains : List PyDict)
    (p : String) (h : fsRead fs p = none) :
    loadFromJson fs trains p = ⟨none, trains, [.fileMissing p]⟩ ∧
    (LogEntry.fileMissing p).level = .warning := by
  rw [loadFromJson, h]
  exact ⟨rfl, rfl⟩

/-- Witness for C6: loading `"nonexistent.json"` from an empty file
system leaves the one-record store unchanged and warns. -/
theorem loadFromJson_missing_noop_witness :
    loadFromJson [] [mkTrain "Moscow" "1" "09:15" "Kazan"]
        "nonexistent.json"
      = ⟨none, [mkTrain "Moscow" "1" "09:15" "Kazan"],
         [.fileMissing "nonexistent.json"]⟩ ∧
    (LogEntry.fileMissing "nonexistent.json").level = .warning :=
  loadFromJson_missing_noop [] [mkTrain "Moscow" "1" "09:15" "Kazan"]
    "nonexistent.json" (by decide)

/-- Claim C7: `saveToFile` writes at the path with the `".json"` suffix
appended exactly when the given path does not already end with it; in
particular `"data"` is written at `"data.json"`, `"data.json"` at
`"data.json"` with no double suffix, and the full collection is
readable at the normalized path afterwards. -/
theorem saveToJson_normalization (fs : FS) (trains : List PyDict)
    (p : String) :
    ((saveToJson fs trains p).2.1
        = if pyEndsWith p ".json" then p else p ++ ".json") ∧
    fsRead (saveToJson fs trains p).1 ((saveToJson fs trains p).2.1)
        = some (.jsonRecords trains) ∧
    (saveToJson fs trains "data").2.1 = "data.json" ∧
    (saveToJson fs trains "data.json").2.1 = "data.json" := by
  refine ⟨rfl, fsRead_fsWrite_self _ _ _, ?_, ?_⟩
  · show normalizeName "data" = "data.json"
    decide
  · show normalizeName "data.json" = "data.json"
    decide

/-- Claim C8: when a load fails (its raised error is propagated, as for
malformed content), the in-memory collection afterwards is exactly the
collection from before the call. -/
theorem loadFromJson_failure_preserves (fs : FS) (trains : List PyDict)
    (p : String) (h : (loadFromJson fs trains p).err ≠ none) :
    (loadFromJson fs trains p).trains = trains := by
  rcases hf : fsRead fs p with _ | d
  · rw [loadFromJson, hf]
  · cases d with
    | jsonRecords rs =>
      rw [loadFromJson, hf] at h
      exact absurd rfl h
    | malformed => rw [loadFromJson, hf]

/-- Witness for C8: loading an unparseable file over a one-record store
fails and leaves that record in place. -/
theorem loadFromJson_failure_preserves_witness :
    (loadFromJson [("x.json", FileData.malformed)]
        [mkTrain "Moscow" "1" "09:00" "Kazan"] "x.json").trains
      = [mkTrain "Moscow" "1" "09:00" "Kazan"] :=
  loadFromJson_failure_preserves [("x.json", FileData.malformed)]
    [mkTrain "Moscow" "1" "09:00" "Kazan"] "x.json" (by decide)

/-- Claim C10: the suffix check of `saveToFile` is case-sensitive: for a
path ending in any variant of the suffix that lower-cases to `".json"`
but is not `".json"` itself (such as `"data.JSON"`), the lowercase
suffix is still appended — the file is written at the path plus
`".json"`, and nothing is written at the given path. -/
theorem saveToJson_suffix_case_sensitive (fs : FS) (trains : List PyDict)
    (q s : String) (h1 : pyLower s = ".json") (h2 : s ≠ ".json") :
    (saveToJson fs trains (q ++ s)).2.1 = (q ++ s) ++ ".json" ∧
    fsRead (saveToJson fs trains (q ++ s)).1 ((q ++ s) ++ ".json")
        = some (.jsonRecords trains) ∧
    fsRead (saveToJson fs trains (q ++ s)).1 (q ++ s)
        = fsRead fs (q ++ s) := by
  have hlen : s.data.length = 5 := by
    have hd : s.data.map Char.toLower = (".json" : String).data :=
      congrArg String.data h1
    have hlen' := congrArg List.length hd
    simpa using hlen'
  have hends : ¬ (pyEndsWith (q ++ s) ".json" = true) := by
    intro hc
    rw [pyEndsWith, List.isSuffixOf_iff_suffix] at hc
    obtain ⟨t, ht⟩ := hc
    rw [String.data_append] at ht
    have heq : (".json" : String).data = s.data :=
      List.append_inj_right' ht (by simp [hlen])
    exact h2 (String.ext heq.symm)
  have hn : normalizeName (q ++ s) = (q ++ s) ++ ".json" := by
    rw [normalizeName, if_neg hends]
  refine ⟨hn, ?_, ?_⟩
  · simp only [saveToJson, hn]
    exact fsRead_fsWrite_self _ _ _
  · simp only [saveToJson, hn]
    exact fsRead_fsWrite_ne _ _ _ _ (ne_append_json _)

/-- Witness for C10: `saveToFile("data.JSON")` writes at
`"data.JSON.json"` and not at `"data.JSON"`. -/
theorem saveToJson_suffix_case_sensitive_witness :
    (saveToJson [] [] ("data" ++ ".JSON")).2.1
      = ("data" ++ ".JSON") ++ ".json" ∧
    fsRead (saveToJson [] [] ("data" ++ ".JSON")).1
        (("data" ++ ".JSON") ++ ".json")
      = some (FileData.jsonRecords []) ∧
    fsRead (saveToJson [] [] ("data" ++ ".JSON")).1 ("data" ++ ".JSON")
      = fsRead [] ("data" ++ ".JSON") :=
  saveToJson_suffix_case_sensitive [] [] "data" ".JSON" (by decide)
    (by decide)

end TrainStore
